import Mathlib

/-!
Verification development for the pisa histogram core (`pisa/core/map.py`).

Shallow embedding conventions:
* numpy float64 values are modelled as exact rationals; IEEE NaN appearing as
  a standard deviation is modelled by `none` in the type `SD := Option ℚ`;
  operations whose float result would be non-finite (division by zero,
  non-integer powers, ...) are modelled as raised errors, so every theorem
  about a successful operation quantifies over the finite-result domain;
* `np.sqrt` on nonnegative arguments is a finite-precision approximation of
  the real square root; it is modelled by the computable `Rat.sqrt`, which is
  exact exactly on perfect squares (all concrete inputs used below);
* a numpy array is modelled as a flat list in row-major order together with
  the shape carried by the map's binning; elementwise binary operations
  require equal lengths (broadcasting is not exercised by any claim);
* Python's exception raising is modelled with `Except Err`.
-/

namespace Pisa

/-- Error taxonomy mirroring the Python exception types raised in map.py. -/
inductive Err where
  /-- Python TypeError; the payload is the name of the offending type, as in
  `type_error(value)` which raises
  TypeError with the type of the value in the message. -/
  | typeError (typeName : String)
  | valueError (msg : String)
  | indexError (msg : String)
  | notImplementedError (msg : String)
deriving DecidableEq, Repr

/-- A standard deviation cell: `none` models IEEE NaN. -/
abbrev SD := Option ℚ

/-- Model of numpy float `sqrt`: NaN (`none`) on negative input, the
finite-precision square root otherwise (exact on perfect squares). -/
def npSqrt (q : ℚ) : SD :=
  if q < 0 then none else some (Rat.sqrt q)

/-- Numeric equality of standard-deviation cells as numpy `==` computes it:
NaN compares unequal to everything, including itself. -/
def sdEqNum (a b : SD) : Bool :=
  match a, b with
  | some x, some y => decide (x = y)
  | _, _ => false

/-- Floor of the base-10 logarithm of a nonzero rational's absolute value. -/
def decExp (q : ℚ) : ℤ :=
  let a : ℤ := Nat.log 10 q.num.natAbs
  let b : ℤ := Nat.log 10 q.den
  if (10 : ℚ) ^ (a - b) ≤ |q| then a - b else a - b - 1

/-- Modelled from the spec: `normQuant` (from `pisa.utils.numerical`, not in
src/) rounds a quantity to a fixed number of significant figures to absorb
floating-point noise; the spec fixes 12 significant figures for hashing. -/
def sigRound (sigfigs : Nat) (q : ℚ) : ℚ :=
  if q = 0 then 0
  else
    let e : ℤ := decExp q - ((sigfigs : ℤ) - 1)
    let s : ℚ := (10 : ℚ) ^ e
    (round (q / s) : ℚ) * s

/-- Constant `HASH_SIGFIGS = 12` from map.py. -/
def HASH_SIGFIGS : Nat := 12

/-- Rounding `normQuant` at `HASH_SIGFIGS` applied to one standard-deviation cell;
NaN is left as NaN. -/
def sdNormQuant (s : SD) : SD := s.map (sigRound HASH_SIGFIGS)

/-- One quantity-with-uncertainty (an `uncertainties` ufloat): nominal value
and standard deviation. -/
structure UVal where
  nominal : ℚ
  sd : SD
deriving DecidableEq, Repr

/-- Standard deviation of a sum or difference of independent quantities:
sqrt of the sum of squares; NaN-propagating. -/
def sdHypot (a b : SD) : SD :=
  match a, b with
  | some x, some y => npSqrt (x ^ 2 + y ^ 2)
  | _, _ => none

/-- ufloat addition with linear error propagation. -/
def uadd (a b : UVal) : UVal := ⟨a.nominal + b.nominal, sdHypot a.sd b.sd⟩

/-- ufloat subtraction with linear error propagation. -/
def usub (a b : UVal) : UVal := ⟨a.nominal - b.nominal, sdHypot a.sd b.sd⟩

/-- ufloat multiplication with linear error propagation. -/
def umul (a b : UVal) : UVal :=
  ⟨a.nominal * b.nominal,
   match a.sd, b.sd with
   | some x, some y => npSqrt ((b.nominal * x) ^ 2 + (a.nominal * y) ^ 2)
   | _, _ => none⟩

/-- ufloat division with linear error propagation; a zero divisor raises in
Python (float division by zero), modelled as `none` here and turned into an
error by the histogram-level operation. -/
def udiv (a b : UVal) : Option UVal :=
  if b.nominal = 0 then none
  else some ⟨a.nominal / b.nominal,
    match a.sd, b.sd with
    | some x, some y =>
        npSqrt ((x / b.nominal) ^ 2 + (a.nominal * y / b.nominal ^ 2) ^ 2)
    | _, _ => none⟩

/-- Rational power with integer exponent; `none` models the cases whose float
result is not an exact rational of this model (fractional exponents) or is
non-finite (zero base with negative exponent). -/
def qpow (x e : ℚ) : Option ℚ :=
  if e.den = 1 then
    if 0 ≤ e.num then some (x ^ e.num.toNat)
    else if x = 0 then none
    else some ((x ^ (-e.num).toNat)⁻¹)
  else none

/-- ufloat power. The derivative term in the exponent needs a logarithm, which
has no exact rational value; an uncertain exponent therefore yields a NaN
standard deviation in this model. -/
def upow (a b : UVal) : Option UVal := do
  let n ← qpow a.nominal b.nominal
  let s : SD :=
    match b.sd, a.sd with
    | some ys, some xs =>
        if ys = 0 then
          match qpow a.nominal (b.nominal - 1) with
          | some d =>
              match npSqrt ((b.nominal * d * xs) ^ 2) with
              | some v => some v
              | none => none
          | none => none
        else none
    | _, _ => none
  pure ⟨n, s⟩

/-- The histogram payload: either a bare float array or an object array of
quantities-with-uncertainty (`unp.uarray`), exactly the two representations
`Map._hist` takes in the source. -/
inductive Hist where
  | bare (vals : List ℚ)
  | uarr (vals : List UVal)
deriving DecidableEq, Repr

namespace Hist

/-- Projection `unp.nominal_values` applied to the histogram. -/
def nominalValues : Hist → List ℚ
  | bare vs => vs
  | uarr vs => vs.map UVal.nominal

/-- Projection `unp.std_devs` applied to the histogram (zero for a bare array). -/
def stdDevs : Hist → List SD
  | bare vs => vs.map (fun _ => some 0)
  | uarr vs => vs.map UVal.sd

/-- Number of cells. -/
def len : Hist → Nat
  | bare vs => vs.length
  | uarr vs => vs.length

/-- View as a list of quantities-with-uncertainty (bare cells have exact
zero standard deviation). -/
def toUVals : Hist → List UVal
  | bare vs => vs.map (fun v => ⟨v, some 0⟩)
  | uarr vs => vs

end Hist

/-- Elementwise combination of two equal-length lists where the cell operation
may be undefined (non-finite float result). -/
def zipCells (f : α → β → Option γ) : List α → List β → Except Err (List γ)
  | [], [] => .ok []
  | a :: as, b :: bs => do
      match f a b with
      | some c => do
          let cs ← zipCells f as bs
          .ok (c :: cs)
      | none => .error (.valueError "operation yields a non-finite result")
  | _, _ => .error (.valueError "operands could not be broadcast together")

namespace Hist

/-- Elementwise binary operation between two histogram payloads, staying in
the bare representation when both operands are bare (numpy float arrays) and
moving to the object-array representation otherwise. `qf` is the plain float
kernel and `uf` the error-propagating kernel. -/
def binOp (qf : ℚ → ℚ → Option ℚ) (uf : UVal → UVal → Option UVal)
    (h1 h2 : Hist) : Except Err Hist :=
  match h1, h2 with
  | bare xs, bare ys => do
      let vs ← zipCells qf xs ys
      .ok (bare vs)
  | a, b => do
      let vs ← zipCells uf a.toUVals b.toUVals
      .ok (uarr vs)

/-- Histogram combined with a broadcast plain float scalar; the result stays
in the histogram's own representation (a float array stays a float array). -/
def scalOpF (qf : ℚ → ℚ → Option ℚ) (uf : UVal → UVal → Option UVal)
    (h : Hist) (c : ℚ) : Except Err Hist :=
  match h with
  | bare xs => do
      let vs ← zipCells qf xs (xs.map (fun _ => c))
      .ok (bare vs)
  | uarr vs => do
      let ws ← zipCells uf vs (vs.map (fun _ => (⟨c, some 0⟩ : UVal)))
      .ok (uarr ws)

/-- Histogram combined with a broadcast `uncertainties.core.Variable`; the
result is always an object array of quantities-with-uncertainty. -/
def scalOpV (uf : UVal → UVal → Option UVal) (h : Hist) (v : UVal) :
    Except Err Hist := do
  let ws ← zipCells uf h.toUVals (h.toUVals.map (fun _ => v))
  .ok (uarr ws)

end Hist

/-- Plain float addition (always finite in this model). -/
def qadd (a b : ℚ) : Option ℚ := some (a + b)

/-- Plain float subtraction. -/
def qsub (a b : ℚ) : Option ℚ := some (a - b)

/-- Plain float multiplication. -/
def qmul (a b : ℚ) : Option ℚ := some (a * b)

/-- Plain float division; division by zero yields a non-finite float. -/
def qdiv (a b : ℚ) : Option ℚ := if b = 0 then none else some (a / b)

/-- Exception-propagating map over a list. -/
def emapM (f : α → Except Err β) : List α → Except Err (List β)
  | [] => .ok []
  | a :: as => do
      let b ← f a
      let bs ← emapM f as
      .ok (b :: bs)

/-- Exception-propagating map over two zipped lists (used only where the
source guarantees equal lengths). -/
def ezipM (f : α → β → Except Err γ) : List α → List β → Except Err (List γ)
  | a :: as, b :: bs => do
      let c ← f a b
      let cs ← ezipM f as bs
      .ok (c :: cs)
  | _, _ => .ok []

/-- Modelled from the spec: one ordered axis of the external Binning
collaborator (`pisa.core.binning.OneDimBinning`, not in src/): a named
sequence of bin edges. -/
structure OneDimBinning where
  name : String
  edges : List ℚ
deriving DecidableEq, Repr

/-- Number of bins along one axis. -/
def OneDimBinning.numBins (d : OneDimBinning) : Nat := d.edges.length - 1

/-- Modelled from the spec: the external Binning collaborator
(`pisa.core.binning.MultiDimBinning`, not in src/): an immutable description
of one or more ordered axes exposing shape, array-compatibility assertion,
sub-indexing and serializable/hashable projections (both of which round-trip
exactly, so they are modelled by the binning value itself). -/
structure MultiDimBinning where
  dimensions : List OneDimBinning
deriving DecidableEq, Repr

/-- The shape of the binning: bins per axis. -/
def MultiDimBinning.shape (b : MultiDimBinning) : List Nat :=
  b.dimensions.map OneDimBinning.numBins

/-- Total number of bins. -/
def MultiDimBinning.totalBins (b : MultiDimBinning) : Nat := b.shape.prod

/-- Modelled from the spec: `assert_array_fits` fails if the array is
incompatible with the binning's shape; in the flat row-major model this is
the cell-count check. -/
def MultiDimBinning.assertArrayFits (b : MultiDimBinning) (cells : Nat) :
    Except Err Unit :=
  if cells = b.totalBins then .ok () else
    .error (.valueError "array does not fit binning shape")

/-- Modelled from the spec: `assert_compat` fails if the two binnings' axis
definitions differ. -/
def MultiDimBinning.assertCompat (a b : MultiDimBinning) : Except Err Unit :=
  if a = b then .ok () else .error (.valueError "incompatible binning")

/-- One component of a multi-dimensional index: a single position or a
`start:stop` slice. -/
inductive IdxC where
  | single (i : Nat)
  | slice (a b : Nat)
deriving DecidableEq, Repr

/-- The positions selected along one axis of size `n` by one index component
(Python slices clamp out-of-range bounds; single indices raise). -/
def axisSelect (n : Nat) : IdxC → Except Err (List Nat)
  | .single i => if i < n then .ok [i] else
      .error (.indexError "index out of bounds")
  | .slice a b => .ok (List.range' (min a n) (min b n - min a n))

/-- Modelled from the spec: indexing one axis returns the reduced axis
covering exactly the selected bins. -/
def OneDimBinning.sub (d : OneDimBinning) (c : IdxC) : Except Err OneDimBinning :=
  match c with
  | .single i =>
      if i < d.numBins then .ok ⟨d.name, (d.edges.drop i).take 2⟩
      else .error (.indexError "index out of bounds")
  | .slice a b =>
      let n := d.numBins
      let s := min a n
      let e := min b n
      .ok ⟨d.name, (d.edges.drop s).take (e - s + 1)⟩

/-- Modelled from the spec: sub-indexing the binning by the same
multi-dimensional index type used by entities returns a reduced binning. -/
def MultiDimBinning.index (bn : MultiDimBinning) (idx : List IdxC) :
    Except Err MultiDimBinning :=
  if idx.length = bn.dimensions.length then do
    let ds ← ezipM OneDimBinning.sub bn.dimensions idx
    .ok ⟨ds⟩
  else .error (.indexError "wrong number of index components")

/-- Row-major flat positions selected from an array of the given shape by
per-axis selection lists. -/
def flatPositions : List (Nat × List Nat) → List Nat
  | [] => [0]
  | (_, sel) :: rest =>
      let sub := flatPositions rest
      let stride := (rest.map Prod.fst).prod
      sel.flatMap (fun j => sub.map (fun p => j * stride + p))

/-- Fetch the cells at the given flat positions. -/
def getCells (vs : List α) (ps : List Nat) : Except Err (List α) :=
  emapM (fun p =>
    match vs.get? p with
    | some v => .ok v
    | none => .error (.indexError "index out of bounds")) ps

/-- Indexing the histogram payload at a list of flat positions. -/
def Hist.select (h : Hist) (ps : List Nat) : Except Err Hist :=
  match h with
  | .bare vs => do
      let ws ← getCells vs ps
      .ok (.bare ws)
  | .uarr vs => do
      let ws ← getCells vs ps
      .ok (.uarr ws)

/-- The built-in TeX lookup table for known particle/channel names, from
`Map.__init__`. -/
def texDict : List (String × String) :=
  [("nue", "\\nu_e"),
   ("numu", "\\nu_\x7b\\mu\x7d"),
   ("nutau", "\\nu_\x7b\\tau\x7d"),
   ("nuebar", "\\bar\x7b\\nu\x7d_e"),
   ("numubar", "\\bar\x7b\\nu\x7d_\x7b\\mu\x7d"),
   ("nutaubar", "\\bar\x7b\\nu\x7d_\x7b\\tau\x7d"),
   ("nue_cc", "\\nu_e\\ CC"),
   ("numu_cc", "\\nu_\x7b\\mu\x7d\\ CC"),
   ("nutau_cc", "\\nu_\x7b\\tau\x7d\\ CC"),
   ("nue_nc", "\\nu_e\\ NC"),
   ("numu_nc", "\\nu_\x7b\\mu\x7d\\ NC"),
   ("nutau_nc", "\\nu_\x7b\\tau\x7d\\ NC"),
   ("nuebar_cc", "\\bar\x7b\\nu\x7d_e\\ CC"),
   ("numubar_cc", "\\bar\x7b\\nu\x7d_\x7b\\mu\x7d\\ CC"),
   ("nutaubar_cc", "\\bar\x7b\\nu\x7d_\x7b\\tau\x7d\\ CC"),
   ("nuebar_nc", "\\bar\x7b\\nu\x7d_e\\ NC"),
   ("numubar_nc", "\\bar\x7b\\nu\x7d_\x7b\\mu\x7d\\ NC"),
   ("nutaubar_nc", "\\bar\x7b\\nu\x7d_\x7b\\tau\x7d\\ NC")]

/-- Default TeX label: the lookup table keyed by name, else derived
mechanically from the name (`r'\rm{%s}' % name`). -/
def defaultTex (name : String) : String :=
  match texDict.find? (fun p => p.1 = name) with
  | some p => p.2
  | none => "\\rm\x7b" ++ name ++ "\x7d"

/-- The histogram entity `Map`: the fields of `Map._state_attrs`
(`parent_indexer`, set only by single-bin iteration, is not touched by any
operation modelled here and is omitted). -/
structure Map where
  name : String
  hist : Hist
  binning : MultiDimBinning
  hash : Option ℤ
  tex : String
  full_comparison : Bool
deriving DecidableEq, Repr

/-- Property `nominal_values`: `unp.nominal_values(self.hist)`. -/
def Map.nominal_values (m : Map) : List ℚ := m.hist.nominalValues

/-- Property `std_devs`: `unp.std_devs(self.hist)`. -/
def Map.std_devs (m : Map) : List SD := m.hist.stdDevs

/-- Method `Map.set_errors`: given an array, attach per-bin standard deviations
after the binning's array-fit check; given `None`, strip uncertainty.
Attaching errors over an existing object array would build `ufloat`s from
`AffineScalarFunc` nominals, which raises. -/
def Map.set_errors (m : Map) (e : Option (List SD)) : Except Err Map :=
  match e with
  | none => .ok { m with hist := Hist.bare m.hist.nominalValues }
  | some errs => do
      m.binning.assertArrayFits errs.length
      match m.hist with
      | .bare vs => .ok { m with hist := Hist.uarr (List.zipWith UVal.mk vs errs) }
      | .uarr _ => .error (.typeError "AffineScalarFunc")

/-- The `Map` constructor (`Map.__init__`): resolves the default TeX label,
checks that the histogram fits the binning, then optionally applies
`set_errors`. -/
def Map.make (name : String) (hist : Hist) (binning : MultiDimBinning)
    (error_hist : Option (List SD)) (hash : Option ℤ) (tex : Option String)
    (full_comparison : Bool) : Except Err Map := do
  let tex' := match tex with | some t => t | none => defaultTex name
  binning.assertArrayFits hist.len
  let m : Map := ⟨name, hist, binning, hash, tex', full_comparison⟩
  match error_hist with
  | none => .ok m
  | some errs => m.set_errors (some errs)

/-- Method `Map.set_poisson_errors`: replaces the histogram with
`unp.uarray(hist, np.sqrt(hist))`. On an object array, the numpy `sqrt`
ufunc loop has no callable `sqrt` method for `AffineScalarFunc` and raises. -/
def Map.set_poisson_errors (m : Map) : Except Err Map :=
  match m.hist with
  | .bare vs =>
      .ok { m with hist := Hist.uarr (vs.map (fun v => ⟨v, npSqrt v⟩)) }
  | .uarr _ => .error (.typeError "AffineScalarFunc")

/-- The canonical ordered serializable state of a `Map`
(`Map._serializable_state`): nominal values, the binning's serializable
projection, the standard deviations (replaced by the null value when all are
zero), hash, TeX label and comparison flag. The persisted JSON layer
(`pisa.utils.jsons`, not in src/) round-trips this exact shape per the spec,
so it is modelled by the state record itself. -/
structure MapState where
  name : String
  hist : List ℚ
  binning : MultiDimBinning
  error_hist : Option (List SD)
  hash : Option ℤ
  tex : String
  full_comparison : Bool
deriving DecidableEq, Repr

/-- Property `Map._serializable_state`. -/
def Map.serializableState (m : Map) : MapState :=
  let stddevs := m.std_devs
  { name := m.name
    hist := m.nominal_values
    binning := m.binning
    error_hist := if stddevs.all (fun s => s = some 0) then none else some stddevs
    hash := m.hash
    tex := m.tex
    full_comparison := m.full_comparison }

/-- The canonicalized state used for full comparisons
(`Map._hashable_state`): like the serializable state but with values rounded
to `HASH_SIGFIGS` significant figures and without the identity hash. -/
structure HashableState where
  name : String
  hist : List ℚ
  binning : MultiDimBinning
  error_hist : Option (List SD)
  tex : String
  full_comparison : Bool
deriving DecidableEq, Repr

/-- Property `Map._hashable_state`. -/
def Map.hashableState (m : Map) : HashableState :=
  let stddevs := (m.std_devs).map sdNormQuant
  { name := m.name
    hist := m.nominal_values.map (sigRound HASH_SIGFIGS)
    binning := m.binning
    error_hist := if stddevs.all (fun s => s = some 0) then none
                  else some (stddevs.map sdNormQuant)
    tex := m.tex
    full_comparison := m.full_comparison }

/-- Modelled from the spec: `recursiveEquality` (`pisa.utils.comparisons`,
not in src/) performs a full recursive structural comparison of two
canonicalized states. -/
def recursiveEquality (a b : HashableState) : Bool := decide (a = b)

/-- Method `Map.from_json` after the JSON layer has produced the state dict:
`Map(**state)`. -/
def Map.fromState (st : MapState) : Except Err Map :=
  Map.make st.name (Hist.bare st.hist) st.binning st.error_hist st.hash
    (some st.tex) st.full_comparison

/-- The right-hand operand classes dispatched on by the `Map` operators:
a plain scalar, an `uncertainties.core.Variable`, a plain numpy array,
another `Map`, or a value of any unrecognized type (carrying that type's
name). -/
inductive Operand where
  | scalar (c : ℚ)
  | uvar (v : UVal)
  | array (a : List ℚ)
  | map (m : Map)
  | other (typeName : String)
deriving DecidableEq, Repr

/-- Method `Map.assert_compat`: no check for scalars and variables, the binning's
array-fit check for arrays, the binning compatibility assertion for maps.
This method exists in the source but is invoked only by `set_errors`, never
by the arithmetic operators. -/
def Map.assert_compat (m : Map) : Operand → Except Err Unit
  | .scalar _ => .ok ()
  | .uvar _ => .ok ()
  | .array a => m.binning.assertArrayFits a.length
  | .map o => m.binning.assertCompat o.binning
  | .other _ => .error (.valueError "Unrecognized type")

/-- Method `Map.__eq__`: scalar operand compares nominal values only; a variable or
array operand compares nominal values and standard deviations elementwise;
a map operand uses the dual hash/full-comparison path; any other operand
raises the type error naming the operand's type. -/
def Map.eq (m : Map) : Operand → Except Err Bool
  | .scalar c => .ok (m.nominal_values.all (fun v => v = c))
  | .uvar v =>
      .ok (m.nominal_values.all (fun x => x = v.nominal)
           && m.std_devs.all (fun s => sdEqNum s v.sd))
  | .array a =>
      .ok (decide (m.nominal_values = a)
           && m.std_devs.all (fun s => sdEqNum s (some 0)))
  | .map o =>
      .ok (if m.full_comparison || o.full_comparison
              || m.hash.isNone || o.hash.isNone then
             recursiveEquality m.hashableState o.hashableState
           else decide (m.hash = o.hash))
  | .other t => .error (.typeError t)

/-- Method `Map.__ne__`: `not self == other`. -/
def Map.ne (m : Map) (x : Operand) : Except Err Bool := do
  let b ← m.eq x
  .ok (!b)

/-- The partial state returned by a `@new_obj`-decorated method: only the
state attributes it overrides. The source's methods only ever override
`hist`, `binning` and `full_comparison` (the name/tex overrides are
commented out). -/
structure StateUpdates where
  hist : Option Hist
  binning : Option MultiDimBinning
  full_comparison : Option Bool
deriving Repr

/-- The `new_obj` decorator: merge the returned partial state with deep
copies of the remaining state attributes of `self`, then run the `Map`
constructor on the merged state. -/
def Map.newObj (self : Map) (u : StateUpdates) : Except Err Map :=
  Map.make self.name (u.hist.getD self.hist) (u.binning.getD self.binning)
    none self.hash (some self.tex) (u.full_comparison.getD self.full_comparison)

/-- Operator `Map.__add__`. -/
def Map.add (self : Map) : Operand → Except Err Map
  | .scalar c => do
      let h ← self.hist.scalOpF qadd (fun a b => some (uadd a b)) c
      self.newObj ⟨some h, none, none⟩
  | .uvar v => do
      let h ← self.hist.scalOpV (fun a b => some (uadd a b)) v
      self.newObj ⟨some h, none, none⟩
  | .array a => do
      let h ← self.hist.binOp qadd (fun a b => some (uadd a b)) (Hist.bare a)
      self.newObj ⟨some h, none, none⟩
  | .map o => do
      let h ← self.hist.binOp qadd (fun a b => some (uadd a b)) o.hist
      self.newObj ⟨some h, none, some (self.full_comparison || o.full_comparison)⟩
  | .other t => .error (.typeError t)

/-- Operator `Map.__sub__`. -/
def Map.sub (self : Map) : Operand → Except Err Map
  | .scalar c => do
      let h ← self.hist.scalOpF qsub (fun a b => some (usub a b)) c
      self.newObj ⟨some h, none, none⟩
  | .uvar v => do
      let h ← self.hist.scalOpV (fun a b => some (usub a b)) v
      self.newObj ⟨some h, none, none⟩
  | .array a => do
      let h ← self.hist.binOp qsub (fun a b => some (usub a b)) (Hist.bare a)
      self.newObj ⟨some h, none, none⟩
  | .map o => do
      let h ← self.hist.binOp qsub (fun a b => some (usub a b)) o.hist
      self.newObj ⟨some h, none, some (self.full_comparison || o.full_comparison)⟩
  | .other t => .error (.typeError t)

/-- Operator `Map.__mul__`. -/
def Map.mul (self : Map) : Operand → Except Err Map
  | .scalar c => do
      let h ← self.hist.scalOpF qmul (fun a b => some (umul a b)) c
      self.newObj ⟨some h, none, none⟩
  | .uvar v => do
      let h ← self.hist.scalOpV (fun a b => some (umul a b)) v
      self.newObj ⟨some h, none, none⟩
  | .array a => do
      let h ← self.hist.binOp qmul (fun a b => some (umul a b)) (Hist.bare a)
      self.newObj ⟨some h, none, none⟩
  | .map o => do
      let h ← self.hist.binOp qmul (fun a b => some (umul a b)) o.hist
      self.newObj ⟨some h, none, some (self.full_comparison || o.full_comparison)⟩
  | .other t => .error (.typeError t)

/-- Operator `Map.__div__` (and `__truediv__`, which delegates to it). -/
def Map.div (self : Map) : Operand → Except Err Map
  | .scalar c => do
      let h ← self.hist.scalOpF qdiv udiv c
      self.newObj ⟨some h, none, none⟩
  | .uvar v => do
      let h ← self.hist.scalOpV udiv v
      self.newObj ⟨some h, none, none⟩
  | .array a => do
      let h ← self.hist.binOp qdiv udiv (Hist.bare a)
      self.newObj ⟨some h, none, none⟩
  | .map o => do
      let h ← self.hist.binOp qdiv udiv o.hist
      self.newObj ⟨some h, none, some (self.full_comparison || o.full_comparison)⟩
  | .other t => .error (.typeError t)

/-- Operator `Map.__pow__`. -/
def Map.pow (self : Map) : Operand → Except Err Map
  | .scalar c => do
      let h ← self.hist.scalOpF qpow upow c
      self.newObj ⟨some h, none, none⟩
  | .uvar v => do
      let h ← self.hist.scalOpV upow v
      self.newObj ⟨some h, none, none⟩
  | .array a => do
      let h ← self.hist.binOp qpow upow (Hist.bare a)
      self.newObj ⟨some h, none, none⟩
  | .map o => do
      let h ← self.hist.binOp qpow upow o.hist
      self.newObj ⟨some h, none, some (self.full_comparison || o.full_comparison)⟩
  | .other t => .error (.typeError t)

/-- Tag for the five binary arithmetic operators named by the claims. -/
inductive ArithOp where
  | add | sub | mul | div | pow
deriving DecidableEq, Repr

/-- Dispatcher over the five binary arithmetic operators. -/
def Map.arith : ArithOp → Map → Operand → Except Err Map
  | .add => Map.add
  | .sub => Map.sub
  | .mul => Map.mul
  | .div => Map.div
  | .pow => Map.pow

/-- Refinement comparison definition following the claim's words: the
resulting entity's exact-comparison flag is the logical OR of both operands'
flags for a map operand and is inherited from `self` otherwise. -/
def specResultFC (self : Map) : Operand → Bool
  | .map o => self.full_comparison || o.full_comparison
  | _ => self.full_comparison

/-- Method `Map.index`: index the binning, select the corresponding cells of the
value array in row-major order and reshape to the sub-binning's shape, then
build the new entity through `new_obj` (which deep-copies the remaining
state attributes of `self`). The source's initial guard
(`not isinstance(idx, Sequence) and len(idx) == 2`) is never taken for
tuple or list indices, the only index type this model represents. -/
def Map.index (m : Map) (idx : List IdxC) : Except Err Map := do
  let nb ← m.binning.index idx
  let sels ← ezipM axisSelect m.binning.shape idx
  let ps := flatPositions (m.binning.shape.zip sels)
  let nh ← m.hist.select ps
  m.newObj ⟨some nh, some nb, none⟩

/-- Operator `Map.__getitem__` delegates to `Map.index`. -/
def Map.getitem (m : Map) (idx : List IdxC) : Except Err Map := m.index idx

/-- Modelled from the spec: `hash_obj` (`pisa.utils.hash`, not in src/)
derives a single combined hash value from a sequence of hashable values. -/
def hash_obj (hs : List ℤ) : ℤ :=
  hs.foldl (fun acc h => acc * 1000003 + h) 17

/-- The histogram collection `MapSet`: ordered members, optional name, TeX
label and the aligned-by-name flag (`collate_by_num` is its negation and is
not stored separately). -/
structure MapSet where
  maps : List Map
  name : Option String
  tex : String
  collate_by_name : Bool
deriving DecidableEq, Repr

/-- Default collection TeX label `r'{\rm %s}' % name` (Python renders a
missing name as the string `None`). -/
def defaultSetTex (name : Option String) : String :=
  "\x7b\\rm " ++ (match name with | some n => n | none => "None") ++ "\x7d"

/-- The `MapSet` constructor (`MapSet.__init__`) applied to already-built
members, as in the collection produced by `apply_to_maps`: name and tex
default, members are aligned by name. -/
def MapSet.ofMaps (maps : List Map) : MapSet :=
  ⟨maps, none, defaultSetTex none, true⟩

/-- The members' names, in order (`MapSet.names`). -/
def MapSet.names (ms : MapSet) : List String := ms.maps.map Map.name

/-- The members' identity hashes, in order (`MapSet.hashes`). -/
def MapSet.hashes (ms : MapSet) : List (Option ℤ) := ms.maps.map Map.hash

/-- Property `MapSet.hash`: the combined hash of the members' hashes when every
member has one, else the null value. -/
def MapSet.hash (ms : MapSet) : Option ℤ :=
  let hashes := ms.hashes
  if hashes.all Option.isSome then some (hash_obj (hashes.filterMap id))
  else none

/-- Index of the first member with the given name. -/
def idxOfName : List Map → String → Option Nat
  | [], _ => none
  | m :: ms, x =>
      if m.name = x then some 0 else (idxOfName ms x).map (· + 1)

/-- Method `MapSet.find_map`: the first member with the given name, a lookup error
if absent. -/
def MapSet.find_map (ms : MapSet) (x : String) : Except Err Map :=
  match idxOfName ms.maps x with
  | some i =>
      match ms.maps.get? i with
      | some m => .ok m
      | none => .error (.indexError "index out of range")
  | none => .error (.valueError "Could not find map name")

/-- The argument classes `apply_to_maps` passes through or aligns: scalars,
variables and arrays pass through unchanged to every member; a sibling
collection is aligned per member; anything else is a type error. (String
arguments, which also pass through, are not used by any claim and are not
modelled.) -/
inductive MSArg where
  | scalar (c : ℚ)
  | uvar (v : UVal)
  | array (a : List ℚ)
  | mapset (ms : MapSet)
  | other (typeName : String)
deriving Repr

/-- Alignment of one argument for the member at position `i` with name
`mapName`, from the argument-construction loop of `MapSet.apply_to_maps`:
pass-through for scalars/variables/arrays; a sibling collection contributes
its member of the same name when aligning by name, else its member at the
same position; an unhandled argument raises a type error. -/
def alignOne (collate_by_name : Bool) (arg : MSArg) (i : Nat)
    (mapName : String) : Except Err Operand :=
  match arg with
  | .scalar c => .ok (.scalar c)
  | .uvar v => .ok (.uvar v)
  | .array a => .ok (.array a)
  | .mapset B =>
      if collate_by_name then do
        let m ← B.find_map mapName
        .ok (.map m)
      else
        match B.maps.get? i with
        | some m => .ok (.map m)
        | none => .error (.indexError "tuple index out of range")
  | .other t => .error (.typeError t)

/-- First phase of `apply_to_maps`: build the per-member argument for every
member (all alignment errors surface before any member operation runs). -/
def buildArgs (collate_by_name : Bool) (arg : MSArg) :
    Nat → List Map → Except Err (List Operand)
  | _, [] => .ok []
  | i, m :: ms => do
      let a ← alignOne collate_by_name arg i m.name
      let as ← buildArgs collate_by_name arg (i + 1) ms
      .ok (a :: as)

/-- Second phase of `apply_to_maps` for a binary member operation: invoke
the operation of each member on its per-member argument. -/
def callOp (op : Map → Operand → Except Err Map) :
    List Map → List Operand → Except Err (List Map)
  | m :: ms, a :: as => do
      let r ← op m a
      let rs ← callOp op ms as
      .ok (r :: rs)
  | _, _ => .ok []

/-- Operator `MapSet.__add__`, i.e. `apply_to_maps('__add__', val)`: every member has
a callable `__add__`, the per-member argument lists are built (aligning a
sibling collection by name or by position), the additions are invoked, and
since all results are maps they are wrapped in a new collection with default
metadata. -/
def MapSet.add (A : MapSet) (val : MSArg) : Except Err MapSet := do
  let args ← buildArgs A.collate_by_name val 0 A.maps
  let rs ← callOp Map.add A.maps args
  .ok (MapSet.ofMaps rs)

/-- Operator `MapSet.__getitem__` with a string: retrieve a member by name. -/
def MapSet.getByName (ms : MapSet) (x : String) : Except Err Map :=
  ms.find_map x

end Pisa


/-- Decidable equality for exception-carrying results, so that concrete
evaluations of the embedded operations can be checked. -/
instance {ε α : Type} [DecidableEq ε] [DecidableEq α] :
    DecidableEq (Except ε α) := fun x y =>
  match x, y with
  | .ok a, .ok b =>
      if h : a = b then .isTrue (by rw [h]) else .isFalse (by simp [h])
  | .error e, .error f =>
      if h : e = f then .isTrue (by rw [h]) else .isFalse (by simp [h])
  | .ok _, .error _ => .isFalse (by simp)
  | .error _, .ok _ => .isFalse (by simp)

theorem except_bind_ok {ε : Type u} {α β : Type v} (a : α) (f : α → Except ε β) :
    (Except.ok a : Except ε α) >>= f = f a := rfl

theorem except_bind_err {ε : Type u} {α β : Type v} (e : ε) (f : α → Except ε β) :
    (Except.error e : Except ε α) >>= f = .error e := rfl

theorem except_map_ok {ε : Type u} {α β : Type v} (a : α) (f : α → β) :
    Except.map f (Except.ok a : Except ε α) = .ok (f a) := rfl

theorem except_map_err {ε : Type u} {α β : Type v} (e : ε) (f : α → β) :
    Except.map f (Except.error e : Except ε α) = .error e := rfl


theorem except_bind_eq_ok {ε : Type u} {α β : Type v} {x : Except ε α} {f : α → Except ε β}
    {b : β} : x >>= f = .ok b ↔ ∃ a, x = .ok a ∧ f a = .ok b := by
  cases x with
  | ok a => simp [except_bind_ok]
  | error e => simp [except_bind_err]

namespace Pisa

theorem make_ok_iff {n : String} {h : Hist} {b : MultiDimBinning}
    {hs : Option ℤ} {t : String} {fc : Bool} {r : Map} :
    Map.make n h b none hs (some t) fc = .ok r ↔
      h.len = b.totalBins ∧ r = ⟨n, h, b, hs, t, fc⟩ := by
  unfold Map.make MultiDimBinning.assertArrayFits
  by_cases hfit : h.len = b.totalBins
  · simp [hfit, except_bind_ok, eq_comm]
  · simp [hfit, except_bind_err]

theorem newObj_ok_iff {self : Map} {u : StateUpdates} {r : Map} :
    Map.newObj self u = .ok r ↔
      (u.hist.getD self.hist).len = (u.binning.getD self.binning).totalBins ∧
      r = ⟨self.name, u.hist.getD self.hist, u.binning.getD self.binning,
           self.hash, self.tex, u.full_comparison.getD self.full_comparison⟩ := by
  unfold Map.newObj
  exact make_ok_iff

theorem zipCells_ok_of_total {f : α → β → Option γ}
    (htot : ∀ x y, (f x y).isSome) :
    ∀ xs : List α, ∀ ys : List β, xs.length = ys.length →
      ∃ zs, zipCells f xs ys = .ok zs ∧ zs.length = xs.length := by
  intro xs
  induction xs with
  | nil =>
      intro ys hlen
      cases ys with
      | nil => exact ⟨[], rfl, rfl⟩
      | cons y ys => simp at hlen
  | cons x xs ih =>
      intro ys hlen
      cases ys with
      | nil => simp at hlen
      | cons y ys =>
          simp only [List.length_cons, Nat.succ_inj] at hlen
          obtain ⟨zs, hzs, hlzs⟩ := ih ys hlen
          have hfx := htot x y
          obtain ⟨c, hc⟩ := Option.isSome_iff_exists.mp hfx
          refine ⟨c :: zs, ?_, by simp [hlzs]⟩
          simp only [zipCells, hc, hzs]
          rfl

theorem zipCells_ok_length {f : α → β → Option γ} :
    ∀ {xs : List α} {ys : List β} {zs : List γ},
      zipCells f xs ys = .ok zs → zs.length = xs.length := by
  intro xs
  induction xs with
  | nil =>
      intro ys zs hz
      cases ys with
      | nil =>
          simp only [zipCells, Except.ok.injEq] at hz
          simp [← hz]
      | cons y ys => simp [zipCells] at hz
  | cons x xs ih =>
      intro ys zs hz
      cases ys with
      | nil => simp [zipCells] at hz
      | cons y ys =>
          simp only [zipCells] at hz
          cases hfx : f x y with
          | none => rw [hfx] at hz; simp at hz
          | some c =>
              rw [hfx] at hz
              simp only at hz
              rw [except_bind_eq_ok] at hz
              obtain ⟨cs, hcs, hok⟩ := hz
              simp only [Except.ok.injEq] at hok
              simp [← hok, ih hcs]

theorem toUVals_length (h : Hist) : h.toUVals.length = h.len := by
  cases h <;> simp [Hist.toUVals, Hist.len]

theorem nominalValues_length (h : Hist) : h.nominalValues.length = h.len := by
  cases h <;> simp [Hist.nominalValues, Hist.len]

theorem stdDevs_length (h : Hist) : h.stdDevs.length = h.len := by
  cases h <;> simp [Hist.stdDevs, Hist.len]

theorem binOp_ok_length {qf : ℚ → ℚ → Option ℚ} {uf : UVal → UVal → Option UVal}
    {h1 h2 h : Hist} (hok : Hist.binOp qf uf h1 h2 = .ok h) :
    h.len = h1.len := by
  cases h1 with
  | bare xs =>
      cases h2 with
      | bare ys =>
          simp only [Hist.binOp, except_bind_eq_ok] at hok
          obtain ⟨vs, hvs, hh⟩ := hok
          cases hh
          simpa [Hist.len] using zipCells_ok_length hvs
      | uarr ys =>
          simp only [Hist.binOp, except_bind_eq_ok] at hok
          obtain ⟨vs, hvs, hh⟩ := hok
          cases hh
          have := zipCells_ok_length hvs
          simpa [Hist.len, toUVals_length] using this
  | uarr xs =>
      simp only [Hist.binOp, except_bind_eq_ok] at hok
      obtain ⟨vs, hvs, hh⟩ := hok
      cases hh
      have := zipCells_ok_length hvs
      simp only [toUVals_length] at this
      simpa [Hist.len] using this

end Pisa

namespace Pisa

theorem opResult_ok {self : Map} {eh : Except Err Hist} {fco : Option Bool}
    {r : Map}
    (hok : (eh >>= fun h => self.newObj ⟨some h, none, fco⟩) = .ok r) :
    r.full_comparison = fco.getD self.full_comparison ∧ r.name = self.name ∧
      r.binning = self.binning ∧ r.hash = self.hash ∧ r.tex = self.tex ∧
      ∃ h, eh = .ok h ∧ r.hist = h ∧ h.len = self.binning.totalBins := by
  rw [except_bind_eq_ok] at hok
  obtain ⟨h, heh, hno⟩ := hok
  rw [newObj_ok_iff] at hno
  obtain ⟨hfit, hr⟩ := hno
  subst hr
  exact ⟨rfl, rfl, rfl, rfl, rfl, h, heh, rfl, hfit⟩

/-- C7: for each of the five binary arithmetic operations on a histogram
entity, a successful result's exact-comparison flag is the logical OR of the
two operands' flags when the operand is another entity, and is inherited
from the left entity for scalar, uncertainty-variable and plain-array
operands. -/
theorem arith_result_full_comparison (o : ArithOp) (self : Map) (x : Operand)
    (r : Map) (hok : Map.arith o self x = .ok r) :
    r.full_comparison = specResultFC self x := by
  cases o <;> cases x <;>
    simp only [Map.arith, Map.add, Map.sub, Map.mul, Map.div, Map.pow] at hok <;>
    first
    | exact absurd hok (by simp)
    | (obtain ⟨hfc, h2, h3, h4, h5, h6⟩ := opResult_ok hok
       simp only [specResultFC, hfc, Option.getD])

def c7b1 : MultiDimBinning := ⟨[⟨"energy", [0, 1, 2]⟩]⟩
def c7a : Map := ⟨"a", Hist.bare [1, 2], c7b1, none, "ta", true⟩
def c7b : Map := ⟨"b", Hist.bare [3, 4], c7b1, none, "tb", false⟩
def c7r : Map := ⟨"a", Hist.bare [4, 6], c7b1, none, "ta", true⟩

theorem c7_eval : Map.arith ArithOp.add c7a (Operand.map c7b) = .ok c7r := by
  norm_num [c7a, c7b, c7r, c7b1, Map.arith, Map.add, Hist.binOp, zipCells,
    qadd, Map.newObj, Map.make, MultiDimBinning.assertArrayFits, Hist.len,
    MultiDimBinning.totalBins, MultiDimBinning.shape, OneDimBinning.numBins,
    except_bind_ok]

def c7s : Map := ⟨"a", Hist.bare [2, 4], c7b1, none, "ta", true⟩

theorem c7s_eval : Map.arith ArithOp.mul c7a (Operand.scalar 2) = .ok c7s := by
  norm_num [c7a, c7s, c7b1, Map.arith, Map.mul, Hist.scalOpF, zipCells,
    qmul, Map.newObj, Map.make, MultiDimBinning.assertArrayFits, Hist.len,
    MultiDimBinning.totalBins, MultiDimBinning.shape, OneDimBinning.numBins,
    except_bind_ok]

/-- C7 witness: a concrete entity-entity addition where the left flag is
true and the right flag is false (result flag is their OR), and a concrete
scalar multiplication (result flag inherited from the left entity). -/
theorem arith_result_full_comparison_witness :
    (Map.arith ArithOp.add c7a (Operand.map c7b) = .ok c7r ∧
      c7r.full_comparison = specResultFC c7a (Operand.map c7b)) ∧
    (Map.arith ArithOp.mul c7a (Operand.scalar 2) = .ok c7s ∧
      c7s.full_comparison = specResultFC c7a (Operand.scalar 2)) :=
  ⟨⟨c7_eval,
    arith_result_full_comparison ArithOp.add c7a (Operand.map c7b) c7r
      c7_eval⟩,
   ⟨c7s_eval,
    arith_result_full_comparison ArithOp.mul c7a (Operand.scalar 2) c7s
      c7s_eval⟩⟩

/-- C9: testing equality of a histogram entity against an operand that is
neither a scalar, nor an uncertainty variable, nor an array, nor another
entity raises a type error carrying the operand's type, rather than
returning a boolean. -/
theorem eq_unsupported_operand_type_error (m : Map) (t : String) :
    Map.eq m (Operand.other t) = .error (Err.typeError t) := rfl

/-- C10: whenever the equality test returns a boolean, the inequality test
returns exactly its logical negation. -/
theorem ne_is_negation_of_eq (m : Map) (x : Operand) (b : Bool)
    (heq : Map.eq m x = .ok b) : Map.ne m x = .ok (!b) := by
  unfold Map.ne
  rw [heq]
  rfl

def c10b : MultiDimBinning := ⟨[⟨"energy", [0, 1]⟩]⟩
def c10m : Map := ⟨"m", Hist.bare [1], c10b, some 5, "t", false⟩
def c10n : Map := ⟨"n", Hist.bare [2], c10b, some 5, "t", false⟩

theorem c10_eval : Map.eq c10m (Operand.map c10n) = .ok true := by decide

/-- C10 witness: a concrete pair comparing equal via the hash path, whose
inequality test returns false. -/
theorem ne_is_negation_of_eq_witness :
    Map.eq c10m (Operand.map c10n) = .ok true ∧
      Map.ne c10m (Operand.map c10n) = .ok false :=
  ⟨c10_eval, ne_is_negation_of_eq c10m (Operand.map c10n) true c10_eval⟩

end Pisa

namespace Pisa

/-- C1: equality of two histogram entities performs the full recursive
structural comparison of the canonicalized (12-significant-figure) states
whenever either entity requests exact comparison or either lacks an identity
hash, and otherwise returns exactly the comparison of the two identity
hashes; consequently two entities with equal assigned hashes and both flags
false compare equal regardless of their contents. -/
theorem map_eq_dual_path (a b : Map) :
    Map.eq a (Operand.map b) =
      .ok (if a.full_comparison || b.full_comparison
              || a.hash.isNone || b.hash.isNone then
             recursiveEquality a.hashableState b.hashableState
           else decide (a.hash = b.hash)) ∧
    (a.hashableState.name = a.name ∧
      a.hashableState.hist = a.nominal_values.map (sigRound HASH_SIGFIGS) ∧
      a.hashableState.binning = a.binning ∧
      a.hashableState.tex = a.tex ∧
      a.hashableState.full_comparison = a.full_comparison) ∧
    (a.full_comparison = false → b.full_comparison = false →
      ∀ h : ℤ, a.hash = some h → b.hash = some h →
        Map.eq a (Operand.map b) = .ok true) := by
  refine ⟨rfl, ⟨rfl, rfl, rfl, rfl, rfl⟩, ?_⟩
  intro hfa hfb h ha hb
  simp [Map.eq, hfa, hfb, ha, hb]

def c1bin : MultiDimBinning := ⟨[⟨"energy", [0, 1]⟩]⟩
def c1a : Map := ⟨"a", Hist.bare [1], c1bin, some 7, "t", false⟩
def c1b : Map := ⟨"a", Hist.bare [2], c1bin, some 7, "t", false⟩

/-- C1 witness: two concrete entities with the same assigned hash, both
flags false and different backing arrays compare equal through the hash
shortcut. -/
theorem map_eq_dual_path_witness :
    c1a.full_comparison = false ∧ c1b.full_comparison = false ∧
      c1a.hash = some 7 ∧ c1b.hash = some 7 ∧ c1a.hist ≠ c1b.hist ∧
      Map.eq c1a (Operand.map c1b) = .ok true :=
  ⟨rfl, rfl, rfl, rfl, by decide,
   (map_eq_dual_path c1a c1b).2.2 rfl rfl 7 rfl rfl⟩

/-- C5 (amended): indexing a histogram entity yields a new entity that keeps
the parent's name, display label and exact-comparison flag, and also carries
over the parent's identity hash unchanged (the hash is not reset). -/
theorem index_keeps_metadata_and_hash (m : Map) (idx : List IdxC) (r : Map)
    (hok : Map.index m idx = .ok r) :
    r.name = m.name ∧ r.tex = m.tex ∧ r.full_comparison = m.full_comparison ∧
      r.hash = m.hash := by
  simp only [Map.index] at hok
  rw [except_bind_eq_ok] at hok
  obtain ⟨nb, -, hok⟩ := hok
  rw [except_bind_eq_ok] at hok
  obtain ⟨sels, -, hok⟩ := hok
  rw [except_bind_eq_ok] at hok
  obtain ⟨nh, -, hok⟩ := hok
  rw [newObj_ok_iff] at hok
  obtain ⟨-, hr⟩ := hok
  subst hr
  exact ⟨rfl, rfl, rfl, rfl⟩

def c5bin : MultiDimBinning := ⟨[⟨"energy", [0, 1, 2]⟩]⟩
def c5m : Map := ⟨"x", Hist.bare [1, 2], c5bin, some 7, "tx", true⟩
def c5r : Map := ⟨"x", Hist.bare [2], ⟨[⟨"energy", [1, 2]⟩]⟩, some 7, "tx", true⟩

theorem c5_eval : Map.index c5m [IdxC.single 1] = .ok c5r := by
  norm_num [c5m, c5bin, c5r, Map.index, MultiDimBinning.index, ezipM,
    OneDimBinning.sub, axisSelect, flatPositions, Hist.select, getCells,
    emapM, Map.newObj, Map.make, MultiDimBinning.assertArrayFits, Hist.len,
    MultiDimBinning.totalBins, MultiDimBinning.shape, OneDimBinning.numBins,
    except_bind_ok, List.range']

/-- C5 counterexample: indexing a concrete entity whose identity hash is 7
returns an entity whose hash is still 7, not the unset value claimed. -/
theorem index_hash_not_reset_counterexample :
    (Map.index c5m [IdxC.single 1]).map Map.hash = .ok (some 7) ∧
      (some 7 : Option ℤ) ≠ none := by
  rw [c5_eval]
  exact ⟨rfl, by decide⟩

/-- C5 witness: the concrete indexing keeps name, label, flag and hash. -/
theorem index_keeps_metadata_witness :
    Map.index c5m [IdxC.single 1] = .ok c5r ∧
      (c5r.name = c5m.name ∧ c5r.tex = c5m.tex ∧
        c5r.full_comparison = c5m.full_comparison ∧ c5r.hash = c5m.hash) :=
  ⟨c5_eval, index_keeps_metadata_and_hash c5m [IdxC.single 1] c5r c5_eval⟩

/-- C6 (amended): the Poisson error helper on a bare histogram sets every
bin's standard deviation to the square root of that bin's nominal value
(NaN when the nominal value is negative, with no clamping at zero) and
leaves every nominal value unchanged. -/
theorem poisson_errors_sqrt_no_clamp (m : Map) (vs : List ℚ)
    (hb : m.hist = Hist.bare vs) :
    (Map.set_poisson_errors m).map Map.std_devs = .ok (vs.map npSqrt) ∧
      (Map.set_poisson_errors m).map Map.nominal_values = .ok vs := by
  simp only [Map.set_poisson_errors, hb, except_map_ok]
  constructor
  · simp [Map.std_devs, Hist.stdDevs, List.map_map, Function.comp]
  · simp [Map.nominal_values, Hist.nominalValues, List.map_map,
      Function.comp_def]

def c6bin : MultiDimBinning := ⟨[⟨"energy", [0, 1]⟩]⟩
def c6m : Map := ⟨"m", Hist.bare [-1], c6bin, none, "t", true⟩

/-- C6 counterexample: on a bin with nominal value -1 the helper stores a
NaN standard deviation, while the claimed value sqrt(max(-1, 0)) is 0. -/
theorem poisson_errors_clamp_counterexample :
    (Map.set_poisson_errors c6m).map Map.std_devs = .ok [none] ∧
      npSqrt (max (-1 : ℚ) 0) = some 0 ∧ (none : SD) ≠ some 0 := by
  refine ⟨by norm_num [c6m, Map.set_poisson_errors, npSqrt, Map.std_devs,
    Hist.stdDevs, except_map_ok], ?_, by decide⟩
  norm_num [npSqrt, Rat.sqrt]

def c6wbin : MultiDimBinning := ⟨[⟨"energy", [0, 1, 2]⟩]⟩
def c6w : Map := ⟨"w", Hist.bare [0, 1], c6wbin, none, "t", true⟩

/-- C6 witness: the amended statement applied to a concrete two-bin map. -/
theorem poisson_errors_sqrt_no_clamp_witness :
    (Map.set_poisson_errors c6w).map Map.std_devs =
        .ok ([0, 1].map npSqrt) ∧
      (Map.set_poisson_errors c6w).map Map.nominal_values = .ok [0, 1] :=
  poisson_errors_sqrt_no_clamp c6w [0, 1] rfl

end Pisa

namespace Pisa

theorem binOp_ok_of_total (qf : ℚ → ℚ → Option ℚ)
    (uf : UVal → UVal → Option UVal)
    (hq : ∀ x y, (qf x y).isSome) (hu : ∀ x y, (uf x y).isSome)
    {h1 h2 : Hist} (hlen : h2.len = h1.len) :
    ∃ h, Hist.binOp qf uf h1 h2 = .ok h ∧ h.len = h1.len := by
  cases h1 with
  | bare xs =>
      cases h2 with
      | bare ys =>
          obtain ⟨zs, hz, hl⟩ := zipCells_ok_of_total hq xs ys
            (by simpa [Hist.len] using hlen.symm)
          refine ⟨.bare zs, ?_, by simp [Hist.len, hl]⟩
          simp only [Hist.binOp, hz]
          rfl
      | uarr ys =>
          obtain ⟨zs, hz, hl⟩ := zipCells_ok_of_total hu
            (Hist.bare xs).toUVals (Hist.uarr ys).toUVals
            (by simp only [toUVals_length]; simpa [Hist.len] using hlen.symm)
          refine ⟨.uarr zs, ?_, ?_⟩
          · simp only [Hist.binOp, hz]
            rfl
          · simp [Hist.len, hl, toUVals_length]
  | uarr xs =>
      obtain ⟨zs, hz, hl⟩ := zipCells_ok_of_total hu
        (Hist.uarr xs).toUVals h2.toUVals
        (by simp only [toUVals_length]; exact hlen.symm)
      cases h2 with
      | bare ys =>
          refine ⟨.uarr zs, ?_, ?_⟩
          · simp only [Hist.binOp, hz]
            rfl
          · simp [Hist.len, hl, toUVals_length]
      | uarr ys =>
          refine ⟨.uarr zs, ?_, ?_⟩
          · simp only [Hist.binOp, hz]
            rfl
          · simp [Hist.len, hl, toUVals_length]

/-- C3 (amended): the arithmetic operators perform no binning-compatibility
assertion for entity operands: addition, subtraction and multiplication
succeed for any two entities whose histograms both fit the left operand's
binning shape even when the two binnings' axis definitions differ, and a
successful result of any of the five operations simply carries the left
operand's binning. -/
theorem arith_ignores_binning_compat :
    (∀ a b : Map, a.hist.len = a.binning.totalBins →
        b.hist.len = a.hist.len →
        (∃ r, Map.add a (Operand.map b) = .ok r) ∧
        (∃ r, Map.sub a (Operand.map b) = .ok r) ∧
        (∃ r, Map.mul a (Operand.map b) = .ok r)) ∧
    (∀ (o : ArithOp) (a b r : Map), Map.arith o a (Operand.map b) = .ok r →
        r.binning = a.binning) := by
  constructor
  · intro a b hfit hlen
    refine ⟨?_, ?_, ?_⟩
    · obtain ⟨h, hbin, hl⟩ :=
        binOp_ok_of_total qadd (fun x y => some (uadd x y))
          (fun _ _ => rfl) (fun _ _ => rfl) hlen
      refine ⟨⟨a.name, h, a.binning, a.hash, a.tex,
        a.full_comparison || b.full_comparison⟩, ?_⟩
      simp only [Map.add, hbin, except_bind_ok]
      rw [newObj_ok_iff]
      exact ⟨by simpa [hl] using hfit, rfl⟩
    · obtain ⟨h, hbin, hl⟩ :=
        binOp_ok_of_total qsub (fun x y => some (usub x y))
          (fun _ _ => rfl) (fun _ _ => rfl) hlen
      refine ⟨⟨a.name, h, a.binning, a.hash, a.tex,
        a.full_comparison || b.full_comparison⟩, ?_⟩
      simp only [Map.sub, hbin, except_bind_ok]
      rw [newObj_ok_iff]
      exact ⟨by simpa [hl] using hfit, rfl⟩
    · obtain ⟨h, hbin, hl⟩ :=
        binOp_ok_of_total qmul (fun x y => some (umul x y))
          (fun _ _ => rfl) (fun _ _ => rfl) hlen
      refine ⟨⟨a.name, h, a.binning, a.hash, a.tex,
        a.full_comparison || b.full_comparison⟩, ?_⟩
      simp only [Map.mul, hbin, except_bind_ok]
      rw [newObj_ok_iff]
      exact ⟨by simpa [hl] using hfit, rfl⟩
  · intro o a b r hok
    cases o <;>
      simp only [Map.arith, Map.add, Map.sub, Map.mul, Map.div, Map.pow]
        at hok <;>
      (obtain ⟨-, -, hbin, -, -, -⟩ := opResult_ok hok; exact hbin)

def c3bA : MultiDimBinning := ⟨[⟨"energy", [0, 1, 2]⟩]⟩
def c3bB : MultiDimBinning := ⟨[⟨"energy", [0, 2, 4]⟩]⟩
def c3a : Map := ⟨"a", Hist.bare [1, 2], c3bA, none, "ta", true⟩
def c3b : Map := ⟨"b", Hist.bare [3, 4], c3bB, none, "tb", true⟩

/-- C3 counterexample: two concrete entities with equal shapes but differing
axis definitions add successfully; no shape/compatibility error is raised. -/
theorem arith_binning_compat_counterexample :
    c3a.binning ≠ c3b.binning ∧
      (Map.add c3a (Operand.map c3b)).isOk = true := by
  constructor
  · decide
  · norm_num [c3a, c3b, c3bA, c3bB, Map.add, Hist.binOp, zipCells, qadd,
      Map.newObj, Map.make, MultiDimBinning.assertArrayFits, Hist.len,
      MultiDimBinning.totalBins, MultiDimBinning.shape,
      OneDimBinning.numBins, except_bind_ok, Except.isOk, Except.toBool]

/-- C3 witness: the amended statement applied to the same concrete pair of
incompatible-binning entities. -/
theorem arith_ignores_binning_compat_witness :
    c3a.hist.len = c3a.binning.totalBins ∧ c3b.hist.len = c3a.hist.len ∧
      (∃ r, Map.add c3a (Operand.map c3b) = .ok r) :=
  ⟨by decide, by decide,
   (arith_ignores_binning_compat.1 c3a c3b (by decide) (by decide)).1⟩

end Pisa

namespace Pisa

/-- C8: a collection's hash is a single value combined from the members'
identity hashes when every member has one, and is the null value whenever at
least one member lacks a hash. -/
theorem mapset_hash_combines_or_none (ms : MapSet) :
    ((∀ h ∈ ms.hashes, h.isSome) →
        MapSet.hash ms = some (hash_obj (ms.hashes.filterMap id))) ∧
    ((∃ h ∈ ms.hashes, h = none) → MapSet.hash ms = none) := by
  constructor
  · intro hall
    simp only [MapSet.hash]
    rw [if_pos (List.all_eq_true.mpr hall)]
  · rintro ⟨h, hm, hnone⟩
    simp only [MapSet.hash]
    rw [if_neg]
    intro hcontra
    have := List.all_eq_true.mp hcontra h hm
    rw [hnone] at this
    simp at this

def c8bin : MultiDimBinning := ⟨[⟨"energy", [0, 1]⟩]⟩
def c8ms1 : MapSet :=
  ⟨[⟨"p", Hist.bare [1], c8bin, some 3, "t", true⟩,
    ⟨"q", Hist.bare [2], c8bin, some 4, "t", true⟩], some "s", "ts", true⟩
def c8ms2 : MapSet :=
  ⟨[⟨"p", Hist.bare [1], c8bin, some 3, "t", true⟩,
    ⟨"q", Hist.bare [2], c8bin, none, "t", true⟩], some "s", "ts", true⟩

/-- C8 witness: a concrete collection with all member hashes set gets the
combined hash; one with a missing member hash gets the null value. -/
theorem mapset_hash_combines_or_none_witness :
    MapSet.hash c8ms1 = some (hash_obj (c8ms1.hashes.filterMap id)) ∧
      MapSet.hash c8ms2 = none :=
  ⟨(mapset_hash_combines_or_none c8ms1).1 (by decide),
   (mapset_hash_combines_or_none c8ms2).2 ⟨none, by decide, rfl⟩⟩

theorem sigRound_zero (n : Nat) : sigRound n 0 = 0 := by
  simp [sigRound]

theorem sdNormQuant_zero : sdNormQuant (some 0) = some 0 := by
  simp [sdNormQuant, sigRound_zero]

theorem sd_zipWith_mk : ∀ (as : List ℚ) (bs : List SD),
    as.length = bs.length →
    (List.zipWith UVal.mk as bs).map UVal.sd = bs := by
  intro as
  induction as with
  | nil =>
      intro bs hl
      cases bs with
      | nil => rfl
      | cons b bs => simp at hl
  | cons a as ih =>
      intro bs hl
      cases bs with
      | nil => simp at hl
      | cons b bs =>
          simp only [List.length_cons, Nat.succ_inj] at hl
          simp [List.zipWith, ih bs hl]

theorem nominal_zipWith_mk : ∀ (as : List ℚ) (bs : List SD),
    as.length = bs.length →
    (List.zipWith UVal.mk as bs).map UVal.nominal = as := by
  intro as
  induction as with
  | nil =>
      intro bs hl
      cases bs with
      | nil => rfl
      | cons b bs => simp at hl
  | cons a as ih =>
      intro bs hl
      cases bs with
      | nil => simp at hl
      | cons b bs =>
          simp only [List.length_cons, Nat.succ_inj] at hl
          simp [List.zipWith, ih bs hl]

theorem hashableState_congr (x y : Map) (hn : x.name = y.name)
    (hv : x.nominal_values = y.nominal_values) (hb : x.binning = y.binning)
    (hs : x.std_devs = y.std_devs) (ht : x.tex = y.tex)
    (hf : x.full_comparison = y.full_comparison) :
    x.hashableState = y.hashableState := by
  simp only [Map.hashableState, Map.nominal_values, Map.std_devs] at *
  rw [hn, hv, hb, hs, ht, hf]

theorem eq_true_of_hashable_eq (x y : Map)
    (h : x.hashableState = y.hashableState) (hh : x.hash = y.hash) :
    Map.eq x (Operand.map y) = .ok true := by
  simp only [Map.eq]
  by_cases hc : (x.full_comparison || y.full_comparison
      || x.hash.isNone || y.hash.isNone) = true
  · simp [hc, recursiveEquality, h]
  · rw [if_neg hc]
    simp [hh]

end Pisa

namespace Pisa

theorem make_bare_errors_ok_iff {n : String} {vs : List ℚ}
    {b : MultiDimBinning} {errs : List SD} {hs : Option ℤ} {t : String}
    {fc : Bool} {r : Map} :
    Map.make n (Hist.bare vs) b (some errs) hs (some t) fc = .ok r ↔
      vs.length = b.totalBins ∧ errs.length = b.totalBins ∧
        r = ⟨n, Hist.uarr (List.zipWith UVal.mk vs errs), b, hs, t, fc⟩ := by
  unfold Map.make Map.set_errors MultiDimBinning.assertArrayFits
  by_cases h1 : vs.length = b.totalBins
  · by_cases h2 : errs.length = b.totalBins
    · simp [Hist.len, h1, h2, except_bind_ok, eq_comm]
    · simp [Hist.len, h1, h2, except_bind_ok, except_bind_err]
  · simp [Hist.len, h1, except_bind_err]

/-- C2: deserializing the serialized state of a histogram entity (any entity
whose histogram fits its binning and whose standard deviations are finite,
the domain on which the rational-number model is float-faithful) yields an
entity whose canonical exact-comparison state equals the original's, and
which therefore compares equal to the original; when every bin's standard
deviation is zero, the serialized error field is the null value and the
reconstructed entity carries all-zero errors. -/
theorem serialize_deserialize_round_trip (m : Map)
    (hfit : m.hist.len = m.binning.totalBins)
    (_hfin : ∀ s ∈ m.std_devs, s.isSome) :
    ((Map.fromState m.serializableState) >>=
        fun m2 => Map.eq m2 (Operand.map m)) = .ok true ∧
      (Map.fromState m.serializableState).map Map.hashableState =
        .ok m.hashableState ∧
      ((∀ s ∈ m.std_devs, s = some 0) →
        m.serializableState.error_hist = none ∧
        (Map.fromState m.serializableState).map Map.std_devs =
          .ok (List.replicate m.hist.len (some 0))) := by
  have hnomlen : m.nominal_values.length = m.hist.len :=
    nominalValues_length _
  have hsdlen : m.std_devs.length = m.hist.len := stdDevs_length _
  by_cases hz : m.std_devs.all (fun s => s = some 0) = true
  · -- all standard deviations are zero: the error field collapses to null
    have hstate : m.serializableState =
        ⟨m.name, m.nominal_values, m.binning, none, m.hash, m.tex,
         m.full_comparison⟩ := by
      simp only [Map.serializableState, Map.nominal_values, Map.std_devs]
        at hz ⊢
      rw [if_pos hz]
    have hfrom : Map.fromState m.serializableState =
        .ok ⟨m.name, Hist.bare m.nominal_values, m.binning, m.hash, m.tex,
             m.full_comparison⟩ := by
      rw [hstate]
      simp only [Map.fromState]
      rw [make_ok_iff]
      exact ⟨hnomlen.trans hfit, rfl⟩
    have hsd1 : (Map.mk m.name (Hist.bare m.nominal_values) m.binning m.hash
        m.tex m.full_comparison).std_devs =
        List.replicate m.hist.len (some 0) := by
      simp [Map.std_devs, Hist.stdDevs, hnomlen]
    have hsdm : m.std_devs = List.replicate m.hist.len (some 0) := by
      rw [← hsdlen]
      refine List.eq_replicate_length.mpr ?_
      intro b hb
      have := List.all_eq_true.mp hz b hb
      simpa using this
    have hhs : (Map.mk m.name (Hist.bare m.nominal_values) m.binning m.hash
        m.tex m.full_comparison).hashableState = m.hashableState := by
      refine hashableState_congr _ _ rfl ?_ rfl ?_ rfl rfl
      · simp [Map.nominal_values, Hist.nominalValues]
      · rw [hsd1, hsdm]
    refine ⟨?_, ?_, ?_⟩
    · rw [hfrom, except_bind_ok]
      exact eq_true_of_hashable_eq _ m hhs rfl
    · rw [hfrom, except_map_ok, hhs]
    · intro _
      refine ⟨by rw [hstate], ?_⟩
      rw [hfrom, except_map_ok, hsd1]
  · -- some standard deviation is nonzero: the error array is serialized
    have hstate : m.serializableState =
        ⟨m.name, m.nominal_values, m.binning, some m.std_devs, m.hash, m.tex,
         m.full_comparison⟩ := by
      simp only [Map.serializableState, Map.nominal_values, Map.std_devs]
        at hz ⊢
      rw [if_neg hz]
    have hfrom : Map.fromState m.serializableState =
        .ok ⟨m.name,
             Hist.uarr (List.zipWith UVal.mk m.nominal_values m.std_devs),
             m.binning, m.hash, m.tex, m.full_comparison⟩ := by
      rw [hstate]
      simp only [Map.fromState]
      rw [make_bare_errors_ok_iff]
      exact ⟨hnomlen.trans hfit, hsdlen.trans hfit, rfl⟩
    have hlen2 : m.nominal_values.length = m.std_devs.length :=
      hnomlen.trans hsdlen.symm
    have hnom2 : (Map.mk m.name
        (Hist.uarr (List.zipWith UVal.mk m.nominal_values m.std_devs))
        m.binning m.hash m.tex m.full_comparison).nominal_values =
        m.nominal_values := by
      simp only [Map.nominal_values, Hist.nominalValues]
      exact nominal_zipWith_mk _ _ hlen2
    have hsd2 : (Map.mk m.name
        (Hist.uarr (List.zipWith UVal.mk m.nominal_values m.std_devs))
        m.binning m.hash m.tex m.full_comparison).std_devs = m.std_devs := by
      simp only [Map.std_devs, Hist.stdDevs]
      exact sd_zipWith_mk _ _ hlen2
    have hhs : (Map.mk m.name
        (Hist.uarr (List.zipWith UVal.mk m.nominal_values m.std_devs))
        m.binning m.hash m.tex m.full_comparison).hashableState =
        m.hashableState :=
      hashableState_congr _ _ rfl hnom2 rfl hsd2 rfl rfl
    refine ⟨?_, ?_, ?_⟩
    · rw [hfrom, except_bind_ok]
      exact eq_true_of_hashable_eq _ m hhs rfl
    · rw [hfrom, except_map_ok, hhs]
    · intro hall
      exact absurd (List.all_eq_true.mpr fun s hs => by simp [hall s hs]) hz

def c2bin : MultiDimBinning := ⟨[⟨"energy", [0, 1, 2]⟩]⟩
def c2m : Map :=
  ⟨"m", Hist.uarr [⟨1, some 1⟩, ⟨2, some 0⟩], c2bin, some 9, "t", true⟩
def c2z : Map := ⟨"z", Hist.uarr [⟨1, some 0⟩, ⟨2, some 0⟩], c2bin, none,
  "t", true⟩

/-- C2 witness: the round trip applied to a concrete entity with an error
array, and to a concrete entity with all-zero errors (whose serialized
error field is null). -/
theorem serialize_deserialize_round_trip_witness :
    (((Map.fromState c2m.serializableState) >>=
        fun m2 => Map.eq m2 (Operand.map c2m)) = .ok true) ∧
    (c2z.serializableState.error_hist = none ∧
      (Map.fromState c2z.serializableState).map Map.std_devs =
        .ok (List.replicate c2z.hist.len (some 0))) :=
  ⟨(serialize_deserialize_round_trip c2m (by decide) (by decide)).1,
   (serialize_deserialize_round_trip c2z (by decide) (by decide)).2.2
     (by decide)⟩

end Pisa

namespace Pisa

theorem add_ok_name {m : Map} {x : Operand} {r : Map}
    (h : Map.add m x = .ok r) : r.name = m.name := by
  cases x <;> simp only [Map.add] at h <;>
    first
    | exact absurd h (by simp)
    | exact (opResult_ok h).2.1

theorem idxOfName_get : ∀ {l : List Map} {x : String} {i : Nat},
    idxOfName l x = some i →
    ∃ h : i < l.length, (l.get ⟨i, h⟩).name = x := by
  intro l
  induction l with
  | nil => intro x i h; simp [idxOfName] at h
  | cons m ms ih =>
      intro x i h
      simp only [idxOfName] at h
      by_cases hm : m.name = x
      · rw [if_pos hm] at h
        cases h
        exact ⟨by simp, hm⟩
      · rw [if_neg hm] at h
        cases hj : idxOfName ms x with
        | none => rw [hj] at h; simp at h
        | some j =>
            rw [hj] at h
            simp only [Option.map_some', Option.some.injEq] at h
            obtain ⟨hlt, hname⟩ := ih hj
            subst h
            refine ⟨by simpa using Nat.succ_lt_succ hlt, ?_⟩
            simpa using hname

theorem idxOfName_of_mem : ∀ {l : List Map} {x : String},
    x ∈ l.map Map.name → ∃ i, idxOfName l x = some i := by
  intro l
  induction l with
  | nil => intro x h; simp at h
  | cons m ms ih =>
      intro x h
      by_cases hm : m.name = x
      · exact ⟨0, by simp [idxOfName, hm]⟩
      · simp only [List.map_cons, List.mem_cons] at h
        rcases h with h | h
        · exact absurd h.symm hm
        · obtain ⟨i, hi⟩ := ih h
          exact ⟨i + 1, by simp [idxOfName, hm, hi]⟩

theorem idxOfName_congr : ∀ {l1 l2 : List Map} {x : String},
    l1.map Map.name = l2.map Map.name →
    idxOfName l1 x = idxOfName l2 x := by
  intro l1
  induction l1 with
  | nil =>
      intro l2 x h
      cases l2 with
      | nil => rfl
      | cons m ms => simp at h
  | cons m ms ih =>
      intro l2 x h
      cases l2 with
      | nil => simp at h
      | cons m2 ms2 =>
          simp only [List.map_cons, List.cons.injEq] at h
          simp only [idxOfName, h.1, ih h.2]

theorem find_map_of_idx {ms : MapSet} {x : String} {i : Nat}
    (hi : idxOfName ms.maps x = some i) (hlt : i < ms.maps.length) :
    ms.find_map x = .ok (ms.maps.get ⟨i, hlt⟩) := by
  simp only [MapSet.find_map, hi]
  rw [List.get?_eq_get hlt]

end Pisa

namespace Pisa

theorem addLoop_by_name (B : MapSet) :
    ∀ (ms : List Map) (j : Nat) (args : List Operand) (rs : List Map),
      buildArgs true (MSArg.mapset B) j ms = .ok args →
      callOp Map.add ms args = .ok rs →
      rs.length = ms.length ∧
        ∀ i (hi : i < ms.length),
          ∃ bx r, B.find_map (ms.get ⟨i, hi⟩).name = .ok bx ∧
            Map.add (ms.get ⟨i, hi⟩) (Operand.map bx) = .ok r ∧
            ∃ hri : i < rs.length, rs.get ⟨i, hri⟩ = r := by
  intro ms
  induction ms with
  | nil =>
      intro j args rs hb hc
      simp only [buildArgs, Except.ok.injEq] at hb
      subst hb
      simp only [callOp, Except.ok.injEq] at hc
      subst hc
      exact ⟨rfl, fun i hi => absurd hi (by simp)⟩
  | cons m ms ih =>
      intro j args rs hb hc
      simp only [buildArgs] at hb
      rw [except_bind_eq_ok] at hb
      obtain ⟨a, ha, hb⟩ := hb
      rw [except_bind_eq_ok] at hb
      obtain ⟨as, has, hb⟩ := hb
      simp only [Except.ok.injEq] at hb
      subst hb
      simp only [alignOne, if_pos] at ha
      rw [except_bind_eq_ok] at ha
      obtain ⟨bm, hbm, ha⟩ := ha
      simp only [Except.ok.injEq] at ha
      subst ha
      simp only [callOp] at hc
      rw [except_bind_eq_ok] at hc
      obtain ⟨r, hr, hc⟩ := hc
      rw [except_bind_eq_ok] at hc
      obtain ⟨rs', hrs', hc⟩ := hc
      simp only [Except.ok.injEq] at hc
      subst hc
      obtain ⟨hlen, hpt⟩ := ih (j + 1) as rs' has hrs'
      refine ⟨by simp [hlen], ?_⟩
      intro i hi
      cases i with
      | zero =>
          exact ⟨bm, r, hbm, hr, by simp, rfl⟩
      | succ i =>
          have hi' : i < ms.length := by simpa using hi
          obtain ⟨bx, r', hbx, hadd, hri, hget⟩ := hpt i hi'
          refine ⟨bx, r', by simpa using hbx, by simpa using hadd,
            by simp [hri], ?_⟩
          simpa using hget

theorem addLoop_by_pos (B : MapSet) :
    ∀ (ms : List Map) (j : Nat),
      (∀ i (hi : i < ms.length),
        ∃ bx r, B.maps.get? (j + i) = some bx ∧
          Map.add (ms.get ⟨i, hi⟩) (Operand.map bx) = .ok r) →
      ∃ args rs, buildArgs false (MSArg.mapset B) j ms = .ok args ∧
        callOp Map.add ms args = .ok rs ∧ rs.length = ms.length ∧
        ∀ i (hi : i < ms.length),
          ∃ bx, B.maps.get? (j + i) = some bx ∧
            ∃ hri : i < rs.length,
              Map.add (ms.get ⟨i, hi⟩) (Operand.map bx) =
                .ok (rs.get ⟨i, hri⟩) := by
  intro ms
  induction ms with
  | nil =>
      intro j hpt
      exact ⟨[], [], rfl, rfl, rfl, fun i hi => absurd hi (by simp)⟩
  | cons m ms ih =>
      intro j hpt
      obtain ⟨bm, r, hbm, hr⟩ := hpt 0 (by simp)
      have hpt' : ∀ i (hi : i < ms.length),
          ∃ bx r, B.maps.get? (j + 1 + i) = some bx ∧
            Map.add (ms.get ⟨i, hi⟩) (Operand.map bx) = .ok r := by
        intro i hi
        obtain ⟨bx, r', hbx, hr'⟩ := hpt (i + 1) (by simpa using hi)
        refine ⟨bx, r', ?_, by simpa using hr'⟩
        rw [show j + 1 + i = j + (i + 1) by omega]
        exact hbx
      obtain ⟨as, rs', hargs, hcall, hlen, hpt''⟩ := ih (j + 1) hpt'
      refine ⟨Operand.map bm :: as, r :: rs', ?_, ?_, by simp [hlen], ?_⟩
      · simp only [buildArgs, alignOne, if_neg (Bool.false_ne_true)]
        rw [show j + 0 = j by omega] at hbm
        rw [hbm, except_bind_ok, hargs, except_bind_ok]
      · simp only [callOp]
        have hr0 : m.add (Operand.map bm) = .ok r := hr
        rw [hr0, except_bind_ok, hcall, except_bind_ok]
      · intro i hi
        cases i with
        | zero =>
            refine ⟨bm, ?_, by simp, hr⟩
            rw [show j + 0 = j by omega] at hbm ⊢
            exact hbm
        | succ i =>
            have hi' : i < ms.length := by simpa using hi
            obtain ⟨bx, hbx, hri, hadd⟩ := hpt'' i hi'
            refine ⟨bx, ?_, by simp [hri], ?_⟩
            · rw [show j + (i + 1) = j + 1 + i by omega]
              exact hbx
            · simpa using hadd

end Pisa

namespace Pisa

/-- C4: adding two name-aligned collections combines members of equal name
(the member named x of the sum is the sum of the members named x), while
adding two position-aligned collections combines the members at equal
positions regardless of their names, raising no error when names differ. -/
theorem mapset_add_alignment :
    (∀ (A B C : MapSet) (x : String),
        A.collate_by_name = true → B.collate_by_name = true →
        MapSet.add A (MSArg.mapset B) = .ok C → x ∈ A.names →
        ∃ ax bx cx, A.find_map x = .ok ax ∧ B.find_map x = .ok bx ∧
          Map.add ax (Operand.map bx) = .ok cx ∧ C.find_map x = .ok cx) ∧
    (∀ (A B : MapSet),
        A.collate_by_name = false → A.maps.length = B.maps.length →
        (∀ i (hiA : i < A.maps.length) (hiB : i < B.maps.length),
          ∃ c, Map.add (A.maps.get ⟨i, hiA⟩)
            (Operand.map (B.maps.get ⟨i, hiB⟩)) = .ok c) →
        ∃ C, MapSet.add A (MSArg.mapset B) = .ok C ∧
          C.maps.length = A.maps.length ∧
          ∀ i (hiA : i < A.maps.length) (hiB : i < B.maps.length)
            (hiC : i < C.maps.length),
            Map.add (A.maps.get ⟨i, hiA⟩)
              (Operand.map (B.maps.get ⟨i, hiB⟩)) =
              .ok (C.maps.get ⟨i, hiC⟩)) := by
  constructor
  · intro A B C x hA hB hok hx
    simp only [MapSet.add, hA] at hok
    rw [except_bind_eq_ok] at hok
    obtain ⟨args, hargs, hok⟩ := hok
    rw [except_bind_eq_ok] at hok
    obtain ⟨rs, hcall, hok⟩ := hok
    simp only [Except.ok.injEq] at hok
    subst hok
    obtain ⟨hlen, hpt⟩ := addLoop_by_name B A.maps 0 args rs hargs hcall
    have hnames : rs.map Map.name = A.maps.map Map.name := by
      refine List.ext_get (by simp [hlen]) ?_
      intro n h1 h2
      have hn : n < A.maps.length := by simpa using h2
      obtain ⟨bx, r, hbx, hadd, hri, hget⟩ := hpt n hn
      rw [List.get_map, List.get_map]
      have : rs.get ⟨n, by simpa using h1⟩ = r := by
        have := hget
        exact this
      rw [this]
      exact add_ok_name hadd
    obtain ⟨i, hidx⟩ := idxOfName_of_mem hx
    obtain ⟨hlt, hname⟩ := idxOfName_get hidx
    obtain ⟨bx, r, hbx, hadd, hri, hget⟩ := hpt i hlt
    refine ⟨A.maps.get ⟨i, hlt⟩, bx, r, find_map_of_idx hidx hlt, ?_, hadd, ?_⟩
    · rw [hname] at hbx
      exact hbx
    · have hidx' : idxOfName (MapSet.ofMaps rs).maps x = some i := by
        show idxOfName rs x = some i
        rw [idxOfName_congr hnames]
        exact hidx
      have hlt' : i < (MapSet.ofMaps rs).maps.length := by
        show i < rs.length
        omega
      rw [find_map_of_idx hidx' hlt']
      show Except.ok (rs.get ⟨i, hlt'⟩) = _
      rw [show rs.get ⟨i, hlt'⟩ = r from hget]
  · intro A B hA hlen hpt
    have hpt0 : ∀ i (hi : i < A.maps.length),
        ∃ bx r, B.maps.get? (0 + i) = some bx ∧
          Map.add (A.maps.get ⟨i, hi⟩) (Operand.map bx) = .ok r := by
      intro i hi
      have hiB : i < B.maps.length := hlen ▸ hi
      obtain ⟨c, hc⟩ := hpt i hi hiB
      refine ⟨B.maps.get ⟨i, hiB⟩, c, ?_, hc⟩
      rw [show 0 + i = i by omega]
      exact List.get?_eq_get hiB
    obtain ⟨args, rs, hargs, hcall, hlenr, hpt'⟩ :=
      addLoop_by_pos B A.maps 0 hpt0
    refine ⟨MapSet.ofMaps rs, ?_, by simpa using hlenr, ?_⟩
    · simp only [MapSet.add, hA]
      rw [hargs, except_bind_ok, hcall, except_bind_ok]
    · intro i hiA hiB hiC
      obtain ⟨bx, hbx, hri, hadd⟩ := hpt' i hiA
      have hbx' : B.maps.get ⟨i, hiB⟩ = bx := by
        have := List.get?_eq_get hiB
        rw [show (0 : ℕ) + i = i by omega] at hbx
        rw [this] at hbx
        exact Option.some.inj hbx
      rw [hbx']
      exact hadd

end Pisa

namespace Pisa

def c4bin : MultiDimBinning := ⟨[⟨"energy", [0, 1]⟩]⟩
def c4x : Map := ⟨"x", Hist.bare [1], c4bin, none, "tx", true⟩
def c4y : Map := ⟨"y", Hist.bare [2], c4bin, none, "ty", true⟩
def c4xB : Map := ⟨"x", Hist.bare [10], c4bin, none, "tx2", true⟩
def c4yB : Map := ⟨"y", Hist.bare [20], c4bin, none, "ty2", true⟩
def c4A : MapSet := ⟨[c4x, c4y], some "A", "tA", true⟩
def c4B : MapSet := ⟨[c4yB, c4xB], some "B", "tB", true⟩
def c4C : MapSet := MapSet.ofMaps
  [⟨"x", Hist.bare [11], c4bin, none, "tx", true⟩,
   ⟨"y", Hist.bare [22], c4bin, none, "ty", true⟩]

theorem c4C_eval : MapSet.add c4A (MSArg.mapset c4B) = .ok c4C := by
  have hyx : ("y" : String) ≠ "x" := by decide
  have hxy : ("x" : String) ≠ "y" := by decide
  norm_num [hyx, hxy, c4A, c4B, c4C, c4x, c4y, c4xB, c4yB, c4bin, MapSet.add,
    buildArgs, alignOne, MapSet.find_map, idxOfName, callOp, Map.add,
    Hist.binOp, zipCells, qadd, Map.newObj, Map.make,
    MultiDimBinning.assertArrayFits, Hist.len, MultiDimBinning.totalBins,
    MultiDimBinning.shape, OneDimBinning.numBins, except_bind_ok,
    MapSet.ofMaps]

def c4p : Map := ⟨"p", Hist.bare [1], c4bin, none, "tp", false⟩
def c4q : Map := ⟨"q", Hist.bare [5], c4bin, none, "tq", false⟩
def c4P : MapSet := ⟨[c4p], some "P", "tP", false⟩
def c4Q : MapSet := ⟨[c4q], some "Q", "tQ", false⟩
def c4pq : Map := ⟨"p", Hist.bare [6], c4bin, none, "tp", false⟩

theorem c4pq_eval : Map.add c4p (Operand.map c4q) = .ok c4pq := by
  norm_num [c4p, c4q, c4pq, c4bin, Map.add, Hist.binOp, zipCells, qadd,
    Map.newObj, Map.make, MultiDimBinning.assertArrayFits, Hist.len,
    MultiDimBinning.totalBins, MultiDimBinning.shape, OneDimBinning.numBins,
    except_bind_ok]

/-- C4 witness: concrete name-aligned collections (with members stored in
different orders) where the member named x of the sum is the sum of the
members named x, and concrete position-aligned singleton collections whose
members have different names but still combine without error. -/
theorem mapset_add_alignment_witness :
    ("x" ∈ c4A.names ∧
      ∃ ax bx cx, c4A.find_map "x" = .ok ax ∧ c4B.find_map "x" = .ok bx ∧
        Map.add ax (Operand.map bx) = .ok cx ∧ c4C.find_map "x" = .ok cx) ∧
    (c4p.name ≠ c4q.name ∧
      ∃ C, MapSet.add c4P (MSArg.mapset c4Q) = .ok C ∧
        C.maps.length = c4P.maps.length ∧
        ∀ i (hiA : i < c4P.maps.length) (hiB : i < c4Q.maps.length)
          (hiC : i < C.maps.length),
          Map.add (c4P.maps.get ⟨i, hiA⟩)
            (Operand.map (c4Q.maps.get ⟨i, hiB⟩)) =
            .ok (C.maps.get ⟨i, hiC⟩)) :=
  ⟨⟨by decide,
    mapset_add_alignment.1 c4A c4B c4C "x" rfl rfl c4C_eval (by decide)⟩,
   ⟨by decide,
    mapset_add_alignment.2 c4P c4Q rfl rfl (fun i hiA hiB => by
      have hi0 : i = 0 := by
        simp only [c4P, List.length_cons, List.length_nil] at hiA
        omega
      subst hi0
      exact ⟨c4pq, c4pq_eval⟩)⟩⟩

end Pisa
